import Mathlib

/-!
Shallow embedding of the byte codec, hex codec and sequence rewriting
primitives of libdevcore/CommonData.h (dev namespace), together with proofs
of the specified properties.

Machine integers are modelled as Nat; fixed-width arithmetic is expressed
with explicit reductions modulo 2 ^ w.  Byte sequences are List Nat with
each entry intended to lie below 256 (casts to uint8_t in the source are
modelled as explicit reductions modulo 256).
-/

/-- Model of the loop body of dev::toBigEndian(T, Out&): the loop runs over
every index of the output collection from the last one down to index 0,
assigning the low byte of the remaining value and shifting the value right
by 8 bits at each step.  Since every position is overwritten, the result
depends only on the length of the collection; bigEndianFill val n produces
the n bytes the loop stores, most significant first. -/
def bigEndianFill : Nat → Nat → List Nat
  | _, 0 => []
  | val, n + 1 => bigEndianFill (val >>> 8) n ++ [val % 256]

/-- Model of dev::toBigEndian(T _val, Out& o_out): the collection keeps its
size and every element is overwritten by the loop, so the output is
bigEndianFill applied to the original length. -/
def toBigEndian (val : Nat) (o_out : List Nat) : List Nat :=
  bigEndianFill val o_out.length

/-- Model of dev::bytesRequired(T): counts how often the value can be
shifted right by 8 bits before reaching zero. -/
def bytesRequired (v : Nat) : Nat :=
  if h : v = 0 then 0 else bytesRequired (v >>> 8) + 1
termination_by v
decreasing_by
  rw [Nat.shiftRight_eq_div_pow]
  exact Nat.div_lt_self (Nat.pos_of_ne_zero h) (by norm_num)

/-- Model of dev::toCompactBigEndian(T _val, unsigned _min): allocates
max(_min, bytesRequired _val) zero bytes and runs toBigEndian over them. -/
def toCompactBigEndian (v : Nat) (_min : Nat) : List Nat :=
  bigEndianFill v (max _min (bytesRequired v))

/-- Model of dev::fromBigEndian<T> at an arbitrary-precision target (bigint):
folds the bytes left to right, accumulating (ret << 8) | byte; the cast of
each element to uint8_t is the reduction modulo 256. -/
def fromBigEndianNat (bs : List Nat) : Nat :=
  bs.foldl (fun ret b => (ret <<< 8) ||| b % 256) 0

/-- Model of dev::fromBigEndian<T> at a fixed-width unsigned target of w bits
(e.g. w = 256 for u256): every arithmetic result is reduced modulo 2 ^ w,
which models the cast back to T after each step. -/
def fromBigEndianW (w : Nat) (bs : List Nat) : Nat :=
  bs.foldl (fun ret b => ((ret <<< 8) ||| b % 256) % 2 ^ w) 0

/-- Result of one run of the scan loop of dev::iterateReplacing:
buffer is the content of modifiedVector when the loop exits, used is the
useModified flag, and calls lists the arguments the rule was invoked on,
in invocation order. -/
structure IRScan (T : Type) where
  buffer : List T
  used : Bool
  calls : List T

/-- Model of the scan loop of dev::iterateReplacing.  The argument done is
the already scanned prefix _vector[0..i), rest is _vector[i..), acc is
modifiedVector and used is useModified.  When the rule fires and useModified
is still false, the scanned prefix is moved into the buffer first (the
one-time catch-up), then the replacement is appended; afterwards the scan
continues on the remaining elements with useModified set. -/
def irScanGo {T : Type} (f : T → Option (List T)) :
    List T → List T → List T → Bool → IRScan T
  | done, x :: rest, acc, used =>
    match f x with
    | some r =>
      let s := irScanGo f (done ++ [x]) rest ((if used then acc else done) ++ r) true
      ⟨s.buffer, s.used, x :: s.calls⟩
    | none =>
      let s := irScanGo f (done ++ [x]) rest (if used then acc ++ [x] else acc) used
      ⟨s.buffer, s.used, x :: s.calls⟩
  | _, [], acc, used => ⟨acc, used, []⟩

/-- Model of dev::iterateReplacing(std::vector<T>&, F const&): runs the scan
loop from the start and assigns the staging buffer back to the vector only
when useModified was set. -/
def iterateReplacing {T : Type} (f : T → Option (List T)) (v : List T) : List T :=
  let s := irScanGo f [] v [] false
  if s.used then s.buffer else v

/-- Argument trace of one run of dev::iterateReplacing. -/
def irCalls {T : Type} (f : T → Option (List T)) (v : List T) : List T :=
  (irScanGo f [] v [] false).calls

/-- Result of one run of the scan loop of dev::detail::iterateReplacingWindow:
buffer is modifiedVector at loop exit, used is useModified, rear is the part
_vector[i..) remaining when the loop exits (the incomplete tail window the
final loop copies through), and calls lists each window the rule was invoked
on together with its starting position. -/
structure IRWScan (T : Type) where
  buffer : List T
  used : Bool
  rear : List T
  calls : List (Nat × List T)

/-- Model of the scan loop of dev::detail::iterateReplacingWindow with window
size N.  The argument done is _vector[0..i), rest is _vector[i..), acc is
modifiedVector and used is useModified.  The loop runs while i + N <= size,
i.e. while N <= rest.length.  On a match the index advances by N (i += N - 1
plus the loop increment); on a non-match it advances by 1.  The fuel
argument decreases by one per iteration; since each iteration consumes at
least one element of rest (the source template is only meaningful for
N >= 1), fuel = rest.length never runs out. -/
def irwScanGo {T : Type} (N : Nat) (f : List T → Option (List T)) :
    Nat → List T → List T → List T → Bool → IRWScan T
  | fuel + 1, done, rest, acc, used =>
    if N ≤ rest.length then
      match f (rest.take N) with
      | some r =>
        let s := irwScanGo N f fuel (done ++ rest.take N) (rest.drop N)
          ((if used then acc else done) ++ r) true
        ⟨s.buffer, s.used, s.rear, (done.length, rest.take N) :: s.calls⟩
      | none =>
        let s := irwScanGo N f fuel (done ++ rest.take 1) (rest.drop 1)
          (if used then acc ++ rest.take 1 else acc) used
        ⟨s.buffer, s.used, s.rear, (done.length, rest.take N) :: s.calls⟩
    else ⟨acc, used, rest, []⟩
  | 0, _, rest, acc, used => ⟨acc, used, rest, []⟩

/-- Model of dev::iterateReplacingWindow<N>(std::vector<T>&, F const&): runs
the scan loop from the start; if useModified was set, the elements that do
not form a complete window are appended and the buffer is assigned back,
otherwise the vector is left untouched. -/
def iterateReplacingWindow {T : Type} (N : Nat) (f : List T → Option (List T))
    (v : List T) : List T :=
  let s := irwScanGo N f v.length [] v [] false
  if s.used then s.buffer ++ s.rear else v

/-- Window trace of one run of dev::iterateReplacingWindow<N>: the windows
the rule was invoked on, each with its starting position. -/
def irwCalls {T : Type} (N : Nat) (f : List T → Option (List T))
    (v : List T) : List (Nat × List T) :=
  (irwScanGo N f v.length [] v [] false).calls

/-- Concrete N = 2 rule for the windowed rewrite example: fires exactly on
the window [2, 3] (position 1 of the test vector) and replaces it by the
single merged element 10. -/
def ruleC2 (w : List Nat) : Option (List Nat) :=
  if w = [2, 3] then some [10] else none

/-- Concrete rule for the single-element rewrite example: replaces the
element 3 by the two elements [30, 31]. -/
def ruleC3 (x : Nat) : Option (List Nat) :=
  if x = 3 then some [30, 31] else none

/-- Model of dev::WhenError. -/
inductive WhenError where
  | DontThrow
  | Throw
deriving DecidableEq

/-- Value of a valid hexadecimal digit character, none for any other
character. -/
def hexDigitValue (c : Char) : Option Nat :=
  if '0' ≤ c ∧ c ≤ '9' then some (c.toNat - 48)
  else if 'a' ≤ c ∧ c ≤ 'f' then some (c.toNat - 97 + 10)
  else if 'A' ≤ c ∧ c ≤ 'F' then some (c.toNat - 65 + 10)
  else none

/-- Modelled from the spec: the implementation of dev::fromHex(char,
WhenError) lives in CommonData.cpp, which is not part of the shown sources;
only its declaration and documentation appear in CommonData.h.  Per the
spec, hexDigitToValue maps a valid hex digit to its value; for an invalid
character the Throw policy signals a decode failure and the DontThrow
policy yields 0. -/
def fromHexDigit (c : Char) (onError : WhenError) : Except Unit Nat :=
  match hexDigitValue c with
  | some v => Except.ok v
  | none =>
    match onError with
    | WhenError.Throw => Except.error ()
    | WhenError.DontThrow => Except.ok 0

/-- Modelled from the spec: the implementation of dev::fromHex(std::string
const&, WhenError) lives in CommonData.cpp, which is not part of the shown
sources.  Per the spec, the string is consumed two characters at a time,
each character decoded through the per-digit decoder under the selected
error policy; an odd-length input's trailing lone character is treated as
the low nibble of a final byte. -/
def fromHexStr (onError : WhenError) : List Char → Except Unit (List Nat)
  | [] => Except.ok []
  | [c] => do
    let v ← fromHexDigit c onError
    Except.ok [v]
  | c1 :: c2 :: rest => do
    let hi ← fromHexDigit c1 onError
    let lo ← fromHexDigit c2 onError
    let tl ← fromHexStr onError rest
    Except.ok ((hi * 16 + lo) :: tl)

/-- Lowercase hex character of a nibble value. -/
def hexDigitChar (n : Nat) : Char :=
  if n < 10 then Char.ofNat (48 + n) else Char.ofNat (87 + n)

/-- Modelled from the spec: the implementation of dev::toHex(bytes const&,
HexPrefix, HexCase) lives in CommonData.cpp, which is not part of the shown
sources.  Per the spec it is pure per-byte formatting: each byte becomes
two lowercase hex characters. -/
def bytesToHexStr (bs : List Nat) : List Char :=
  bs.flatMap fun b => [hexDigitChar (b / 16), hexDigitChar (b % 16)]

/-- Model of dev::formatNumber(bigint const&): a negative value is rendered
as a minus sign followed by the rendering of its negation; a value above
0x1000000 is rendered as prefixed compact hex; otherwise as decimal. -/
def formatNumber (v : Int) : String :=
  if h : v < 0 then "-" ++ formatNumber (-v)
  else if v > 0x1000000 then "0x" ++ String.mk (bytesToHexStr (toCompactBigEndian v.toNat 1))
  else toString v.toNat
termination_by (if v < 0 then 1 else 0 : Nat)
decreasing_by
  have hnn : ¬ (-v < 0) := by omega
  simp [h, hnn]

theorem bigEndianFill_length (n : Nat) : ∀ v, (bigEndianFill v n).length = n := by
  induction n with
  | zero => intro v; rfl
  | succ n ih => intro v; simp [bigEndianFill, ih]

theorem bigEndianFill_zero_val (n : Nat) : bigEndianFill 0 n = List.replicate n 0 := by
  induction n with
  | zero => rfl
  | succ n ih => simp [bigEndianFill, ih, List.replicate_succ']

theorem bytesRequired_zero_iff (v : Nat) : bytesRequired v = 0 ↔ v = 0 := by
  rw [bytesRequired]
  split <;> simp_all

theorem bytesRequired_succ {v : Nat} (h : v ≠ 0) :
    bytesRequired v = bytesRequired (v >>> 8) + 1 := by
  rw [bytesRequired]
  simp [h]

theorem bytesRequired_le_iff (n : Nat) : ∀ v : Nat, bytesRequired v ≤ n ↔ v < 256 ^ n := by
  induction n with
  | zero =>
    intro v
    rw [pow_zero, Nat.lt_one_iff, Nat.le_zero, bytesRequired_zero_iff]
  | succ n ih =>
    intro v
    by_cases hv : v = 0
    · subst hv
      have h0 : bytesRequired 0 = 0 := (bytesRequired_zero_iff 0).mpr rfl
      simp [h0]
    · rw [bytesRequired_succ hv, Nat.succ_le_succ_iff, ih, Nat.shiftRight_eq_div_pow]
      rw [Nat.div_lt_iff_lt_mul (by norm_num : (0:Nat) < 2 ^ 8)]
      have hps : (256:Nat) ^ (n+1) = 256 ^ n * 2 ^ 8 := by rw [pow_succ]; norm_num
      rw [hps]

theorem lor_step (v : Nat) : ((v >>> 8) <<< 8) ||| v % 256 = v := by
  have hb : v % 256 < 2 ^ 8 := by
    have := Nat.mod_lt v (show 0 < 256 by norm_num)
    norm_num
    omega
  rw [Nat.shiftRight_eq_div_pow, Nat.shiftLeft_eq, mul_comm]
  rw [← Nat.mul_add_lt_is_or hb (v / 2 ^ 8)]
  norm_num
  omega

theorem fromBigEndianNat_fill (n : Nat) : ∀ v : Nat, v < 256 ^ n →
    fromBigEndianNat (bigEndianFill v n) = v := by
  induction n with
  | zero =>
    intro v hv
    have : v = 0 := by omega
    subst this
    rfl
  | succ n ih =>
    intro v hv
    show fromBigEndianNat (bigEndianFill (v >>> 8) n ++ [v % 256]) = v
    unfold fromBigEndianNat
    rw [List.foldl_append]
    simp only [List.foldl_cons, List.foldl_nil]
    have hsh : v >>> 8 < 256 ^ n := by
      rw [Nat.shiftRight_eq_div_pow]
      rw [Nat.div_lt_iff_lt_mul (by norm_num : (0:Nat) < 2 ^ 8)]
      calc v < 256 ^ (n+1) := hv
        _ = 256 ^ n * 2 ^ 8 := by rw [pow_succ]; norm_num
    have hih := ih (v >>> 8) hsh
    unfold fromBigEndianNat at hih
    rw [hih, Nat.mod_mod_of_dvd v dvd_rfl, lor_step]

theorem fromBigEndianW_fill (w n : Nat) : ∀ v : Nat, v < 256 ^ n → v < 2 ^ w →
    fromBigEndianW w (bigEndianFill v n) = v := by
  induction n with
  | zero =>
    intro v hv _
    have : v = 0 := by omega
    subst this
    rfl
  | succ n ih =>
    intro v hv hw
    show fromBigEndianW w (bigEndianFill (v >>> 8) n ++ [v % 256]) = v
    unfold fromBigEndianW
    rw [List.foldl_append]
    simp only [List.foldl_cons, List.foldl_nil]
    have hsh : v >>> 8 < 256 ^ n := by
      rw [Nat.shiftRight_eq_div_pow]
      rw [Nat.div_lt_iff_lt_mul (by norm_num : (0:Nat) < 2 ^ 8)]
      calc v < 256 ^ (n+1) := hv
        _ = 256 ^ n * 2 ^ 8 := by rw [pow_succ]; norm_num
    have hshw : v >>> 8 < 2 ^ w := by
      rw [Nat.shiftRight_eq_div_pow]
      exact Nat.lt_of_le_of_lt (Nat.div_le_self _ _) hw
    have hih := ih (v >>> 8) hsh hshw
    unfold fromBigEndianW at hih
    rw [hih, Nat.mod_mod_of_dvd v dvd_rfl, lor_step, Nat.mod_eq_of_lt hw]

theorem bigEndianFill_pad (n : Nat) : ∀ v : Nat, bytesRequired v ≤ n →
    bigEndianFill v n =
      List.replicate (n - bytesRequired v) 0 ++ bigEndianFill v (bytesRequired v) := by
  induction n with
  | zero =>
    intro v h
    have hv : v = 0 := (bytesRequired_zero_iff v).mp (Nat.le_zero.mp h)
    subst hv
    have h0 : bytesRequired 0 = 0 := (bytesRequired_zero_iff 0).mpr rfl
    simp [h0]
  | succ n ih =>
    intro v h
    by_cases hv : v = 0
    · subst hv
      have h0 : bytesRequired 0 = 0 := (bytesRequired_zero_iff 0).mpr rfl
      simp [h0, bigEndianFill_zero_val]
    · have hbr := bytesRequired_succ hv
      have hle : bytesRequired (v >>> 8) ≤ n := by omega
      show bigEndianFill (v >>> 8) n ++ [v % 256] = _
      rw [ih (v >>> 8) hle, hbr]
      rw [show bigEndianFill v (bytesRequired (v >>> 8) + 1)
            = bigEndianFill (v >>> 8) (bytesRequired (v >>> 8)) ++ [v % 256] from rfl]
      rw [show n + 1 - (bytesRequired (v >>> 8) + 1) = n - bytesRequired (v >>> 8) by omega]
      rw [List.append_assoc]

theorem bigEndianFill_head_ne (n : Nat) : ∀ v : Nat, 0 < v → bytesRequired v = n →
    (bigEndianFill v n).head? ≠ some 0 := by
  induction n with
  | zero =>
    intro v hv h
    exact absurd ((bytesRequired_zero_iff v).mp h) (by omega)
  | succ n ih =>
    intro v hv h
    have hv' : v ≠ 0 := by omega
    have hbr := bytesRequired_succ hv'
    have hn : bytesRequired (v >>> 8) = n := by omega
    show (bigEndianFill (v >>> 8) n ++ [v % 256]).head? ≠ some 0
    cases n with
    | zero =>
      have hlt : v < 256 := by
        have h1 := (bytesRequired_le_iff 1 v).mp (by omega)
        norm_num at h1
        exact h1
      simp [bigEndianFill]
      omega
    | succ m =>
      have hpos : 0 < v >>> 8 := by
        rcases Nat.eq_zero_or_pos (v >>> 8) with hz | hp
        · rw [hz] at hn
          have := (bytesRequired_zero_iff 0).mpr rfl
          omega
        · exact hp
      have hih := ih (v >>> 8) hpos hn
      rw [List.head?_append]
      cases hh : (bigEndianFill (v >>> 8) (m+1)).head? with
      | none =>
        have hlen := bigEndianFill_length (m+1) (v >>> 8)
        rw [List.head?_eq_none_iff] at hh
        simp [hh] at hlen
      | some a =>
        rw [hh] at hih
        simp [Option.or] at hih ⊢
        exact hih

theorem bigEndianFill_mod (n : Nat) : ∀ v : Nat,
    bigEndianFill v n = bigEndianFill (v % 2 ^ (8 * n)) n := by
  induction n with
  | zero => intro v; rfl
  | succ n ih =>
    intro v
    show bigEndianFill (v >>> 8) n ++ [v % 256]
      = bigEndianFill ((v % 2 ^ (8 * (n+1))) >>> 8) n ++ [v % 2 ^ (8 * (n+1)) % 256]
    have h1 : v % 2 ^ (8 * (n+1)) % 256 = v % 256 := by
      apply Nat.mod_mod_of_dvd
      exact ⟨2 ^ (8 * n), by rw [show 8 * (n+1) = 8 + 8 * n by ring, pow_add]; norm_num⟩
    have h2 : (v % 2 ^ (8 * (n+1))) >>> 8 = (v >>> 8) % 2 ^ (8 * n) := by
      rw [Nat.shiftRight_eq_div_pow, Nat.shiftRight_eq_div_pow]
      rw [show (2:Nat) ^ (8 * (n+1)) = 2 ^ 8 * 2 ^ (8 * n) by
        rw [← pow_add]; ring_nf]
      exact Nat.mod_mul_right_div_self v (2 ^ 8) (2 ^ (8 * n))
    rw [h1, h2, ← ih (v >>> 8)]

/-- C1: for every non-negative value v and every minimum length, decoding
the compact big-endian encoding returns the original value, at a
fixed-width decoding target of w bits provided v is representable in w
bits, and unconditionally at the arbitrary-precision (bigint) target. -/
theorem c1_roundtrip :
    (∀ (w v _min : Nat), v < 2 ^ w →
      fromBigEndianW w (toCompactBigEndian v _min) = v)
    ∧ ∀ (v _min : Nat), fromBigEndianNat (toCompactBigEndian v _min) = v := by
  constructor
  · intro w v _min hw
    unfold toCompactBigEndian
    apply fromBigEndianW_fill
    · exact (bytesRequired_le_iff _ v).mp (le_max_right _ _)
    · exact hw
  · intro v _min
    unfold toCompactBigEndian
    apply fromBigEndianNat_fill
    exact (bytesRequired_le_iff _ v).mp (le_max_right _ _)

/-- C1 witness: the round trip at width 16, value 300 and minimum length 5. -/
theorem c1_witness : fromBigEndianW 16 (toCompactBigEndian 300 5) = 300 :=
  c1_roundtrip.1 16 300 5 (by norm_num)

/-- C4 counterexample: for value 1 and the pre-filled two-byte buffer
[7, 7], whose length exceeds the single byte required to represent 1, the
claim predicts that the leading byte 7 is left as supplied, i.e. result
[7, 1]; the encoder actually overwrites it with zero, producing [0, 1]. -/
theorem c4_counterexample :
    toBigEndian 1 [7, 7] = [0, 1] ∧ toBigEndian 1 [7, 7] ≠ [7, 1] := by
  decide

/-- C4 amended: for every value v and every pre-filled output buffer whose
length exceeds the number of bytes required to represent v, the fixed-length
big-endian encoder zeroes the unused low-index (leading) bytes of the
buffer, while v occupies only the low-order tail (the compact encoding of
v). -/
theorem c4_amended :
    ∀ (v : Nat) (o_out : List Nat), bytesRequired v < o_out.length →
      toBigEndian v o_out =
        List.replicate (o_out.length - bytesRequired v) 0 ++ toCompactBigEndian v 0 := by
  intro v o_out h
  unfold toBigEndian toCompactBigEndian
  rw [show max 0 (bytesRequired v) = bytesRequired v from Nat.zero_max _]
  exact bigEndianFill_pad o_out.length v (le_of_lt h)

/-- C4 witness: the amended statement at value 1 and buffer [7, 7]. -/
theorem c4_witness :
    bytesRequired 1 < ([7, 7] : List Nat).length
    ∧ toBigEndian 1 [7, 7] =
        List.replicate (([7, 7] : List Nat).length - bytesRequired 1) 0
          ++ toCompactBigEndian 1 0 := by
  have h1 : bytesRequired 1 ≤ 1 := (bytesRequired_le_iff 1 1).mpr (by norm_num)
  have hb : bytesRequired 1 < ([7, 7] : List Nat).length := by
    simp only [List.length_cons, List.length_nil]
    omega
  exact ⟨hb, c4_amended 1 [7, 7] hb⟩

/-- C6: bytesRequired 0 is 0; for positive v and a minimum length not above
bytesRequired v, the compact encoding has no leading zero byte and has
length exactly bytesRequired v; for a larger minimum length the encoding
has that length and is left-padded with zero bytes. -/
theorem c6_minimality :
    bytesRequired 0 = 0
    ∧ (∀ (v _min : Nat), 0 < v → _min ≤ bytesRequired v →
        (toCompactBigEndian v _min).length = bytesRequired v
        ∧ (toCompactBigEndian v _min).head? ≠ some 0)
    ∧ ∀ (v _min : Nat), bytesRequired v < _min →
        (toCompactBigEndian v _min).length = _min
        ∧ (toCompactBigEndian v _min).take (_min - bytesRequired v) =
            List.replicate (_min - bytesRequired v) 0 := by
  refine ⟨(bytesRequired_zero_iff 0).mpr rfl, ?_, ?_⟩
  · intro v _min hv hmin
    have hmax : max _min (bytesRequired v) = bytesRequired v := max_eq_right hmin
    unfold toCompactBigEndian
    rw [hmax]
    exact ⟨bigEndianFill_length _ v, bigEndianFill_head_ne _ v hv rfl⟩
  · intro v _min hmin
    have hmax : max _min (bytesRequired v) = _min := max_eq_left (le_of_lt hmin)
    unfold toCompactBigEndian
    rw [hmax]
    refine ⟨bigEndianFill_length _ v, ?_⟩
    rw [bigEndianFill_pad _min v (le_of_lt hmin)]
    exact List.take_left' (List.length_replicate _ _)

/-- C6 witness: value 5 with minimum lengths 1 and 3. -/
theorem c6_witness :
    (0 < 5 ∧ 1 ≤ bytesRequired 5
      ∧ (toCompactBigEndian 5 1).length = bytesRequired 5
      ∧ (toCompactBigEndian 5 1).head? ≠ some 0)
    ∧ bytesRequired 5 < 3
    ∧ (toCompactBigEndian 5 3).length = 3
    ∧ (toCompactBigEndian 5 3).take (3 - bytesRequired 5) =
        List.replicate (3 - bytesRequired 5) 0 := by
  have hle : bytesRequired 5 ≤ 1 := (bytesRequired_le_iff 1 5).mpr (by norm_num)
  have hne : bytesRequired 5 ≠ 0 := by
    intro hc
    simpa using (bytesRequired_zero_iff 5).mp hc
  exact ⟨⟨by norm_num, by omega, c6_minimality.2.1 5 1 (by norm_num) (by omega)⟩,
    by omega, c6_minimality.2.2 5 3 (by omega)⟩

/-- C7: when the output buffer of length n is too short for the value (v is
at least 2 ^ (8 n)), the fixed-length encoder silently stores exactly the
big-endian encoding of v modulo 2 ^ (8 n): the high-order bits are
discarded and no error is signalled. -/
theorem c7_truncation :
    ∀ (v : Nat) (o_out : List Nat), 2 ^ (8 * o_out.length) ≤ v →
      toBigEndian v o_out = bigEndianFill (v % 2 ^ (8 * o_out.length)) o_out.length
      ∧ fromBigEndianNat (toBigEndian v o_out) = v % 2 ^ (8 * o_out.length) := by
  intro v o_out _
  unfold toBigEndian
  refine ⟨bigEndianFill_mod o_out.length v, ?_⟩
  rw [bigEndianFill_mod o_out.length v]
  apply fromBigEndianNat_fill
  have hpw : (256:Nat) ^ o_out.length = 2 ^ (8 * o_out.length) := by
    rw [show (256:Nat) = 2 ^ 8 by norm_num, ← pow_mul]
  rw [hpw]
  exact Nat.mod_lt _ (pow_pos (by norm_num) _)

/-- C7 witness: value 256 with a one-byte buffer. -/
theorem c7_witness :
    2 ^ (8 * ([0] : List Nat).length) ≤ 256
    ∧ (toBigEndian 256 [0]
        = bigEndianFill (256 % 2 ^ (8 * ([0] : List Nat).length)) ([0] : List Nat).length
      ∧ fromBigEndianNat (toBigEndian 256 [0]) = 256 % 2 ^ (8 * ([0] : List Nat).length)) :=
  ⟨by norm_num, c7_truncation 256 [0] (by norm_num)⟩

theorem irScanGo_calls {T : Type} (f : T → Option (List T)) :
    ∀ (rest done acc : List T) (used : Bool),
      (irScanGo f done rest acc used).calls = rest := by
  intro rest
  induction rest with
  | nil => intro done acc used; simp [irScanGo]
  | cons x rest ih =>
    intro done acc used
    cases hf : f x with
    | some r => simp [irScanGo, hf, ih]
    | none => simp [irScanGo, hf, ih]

theorem irScanGo_true {T : Type} (f : T → Option (List T)) :
    ∀ (rest done acc : List T),
      irScanGo f done rest acc true =
        ⟨acc ++ rest.flatMap (fun x => (f x).getD [x]), true, rest⟩ := by
  intro rest
  induction rest with
  | nil => intro done acc; simp [irScanGo]
  | cons x rest ih =>
    intro done acc
    cases hf : f x with
    | some r => simp [irScanGo, hf, ih]
    | none => simp [irScanGo, hf, ih]

theorem irScanGo_false {T : Type} (f : T → Option (List T)) :
    ∀ (rest done acc : List T),
      irScanGo f done rest acc false =
        if rest.any (fun x => (f x).isSome)
        then ⟨done ++ rest.flatMap (fun x => (f x).getD [x]), true, rest⟩
        else ⟨acc, false, rest⟩ := by
  intro rest
  induction rest with
  | nil => intro done acc; simp [irScanGo]
  | cons x rest ih =>
    intro done acc
    cases hf : f x with
    | some r => simp [irScanGo, hf, irScanGo_true]
    | none =>
      by_cases ha : rest.any (fun x => (f x).isSome) = true
      · simp [irScanGo, hf, ih, ha]
      · simp [irScanGo, hf, ih, ha]

theorem flatMap_getD_of_none {T : Type} (f : T → Option (List T)) :
    ∀ v : List T, (∀ x ∈ v, f x = none) →
      (v.flatMap fun x => (f x).getD [x]) = v := by
  intro v
  induction v with
  | nil => intro _; rfl
  | cons x rest ih =>
    intro h
    have hx : f x = none := h x (by simp)
    simp [hx, ih fun y hy => h y (by simp [hy])]

theorem irwScanGo_calls_window {T : Type} (N : Nat) (f : List T → Option (List T)) :
    ∀ (fuel : Nat) (done rest acc : List T) (used : Bool),
      ∀ p ∈ (irwScanGo N f fuel done rest acc used).calls,
        p.2 = ((done ++ rest).drop p.1).take N := by
  intro fuel
  induction fuel with
  | zero => intro done rest acc used p hp; simp [irwScanGo] at hp
  | succ fuel ih =>
    intro done rest acc used p hp
    by_cases hN2 : N ≤ rest.length
    · cases hf : f (rest.take N) with
      | some r =>
        simp only [irwScanGo, if_pos hN2, hf] at hp
        rcases List.mem_cons.mp hp with hp | hp
        · subst hp
          simp [List.drop_left]
        · have := ih (done ++ rest.take N) (rest.drop N) _ _ p hp
          rwa [List.append_assoc, List.take_append_drop] at this
      | none =>
        simp only [irwScanGo, if_pos hN2, hf] at hp
        rcases List.mem_cons.mp hp with hp | hp
        · subst hp
          simp [List.drop_left]
        · have := ih (done ++ rest.take 1) (rest.drop 1) _ _ p hp
          rwa [List.append_assoc, List.take_append_drop] at this
    · simp [irwScanGo, hN2] at hp

theorem irwScanGo_calls_head {T : Type} (N : Nat) (f : List T → Option (List T)) :
    ∀ (fuel : Nat) (done rest acc : List T) (used : Bool), rest.length ≤ fuel → 0 < N →
      ((irwScanGo N f fuel done rest acc used).calls).head? =
        if N ≤ rest.length then some (done.length, rest.take N) else none := by
  intro fuel done rest acc used hlen hN
  cases fuel with
  | zero =>
    have hr : rest = [] := List.length_eq_zero.mp (Nat.le_zero.mp hlen)
    subst hr
    have hnle : ¬ N ≤ ([] : List T).length := by simp; omega
    have hNz : N ≠ 0 := by omega
    simp [irwScanGo, hnle, hNz]
  | succ fuel =>
    by_cases hN2 : N ≤ rest.length
    · cases hf : f (rest.take N) with
      | some r => simp [irwScanGo, hN2, hf]
      | none => simp [irwScanGo, hN2, hf]
    · simp [irwScanGo, hN2]

theorem irwScanGo_chain {T : Type} (N : Nat) (hN : 0 < N) (f : List T → Option (List T)) :
    ∀ (fuel : Nat) (done rest acc : List T) (used : Bool), rest.length ≤ fuel →
      List.Chain' (fun a b => b.1 = a.1 + if (f a.2).isSome then N else 1)
        ((irwScanGo N f fuel done rest acc used).calls) := by
  intro fuel
  induction fuel with
  | zero => intro done rest acc used _; simp [irwScanGo]
  | succ fuel ih =>
    intro done rest acc used hlen
    by_cases hN2 : N ≤ rest.length
    · cases hf : f (rest.take N) with
      | some r =>
        simp only [irwScanGo, if_pos hN2, hf]
        rw [List.chain'_cons']
        constructor
        · intro y hy
          rw [irwScanGo_calls_head N f fuel (done ++ rest.take N) (rest.drop N) _ true
            (by simp; omega) hN] at hy
          split at hy
          · simp only [Option.mem_def, Option.some_inj] at hy
            subst hy
            simp [hf, List.length_take, Nat.min_eq_left hN2]
          · simp at hy
        · exact ih (done ++ rest.take N) (rest.drop N) _ true (by simp; omega)
      | none =>
        simp only [irwScanGo, if_pos hN2, hf]
        rw [List.chain'_cons']
        constructor
        · intro y hy
          rw [irwScanGo_calls_head N f fuel (done ++ rest.take 1) (rest.drop 1) _ used
            (by simp; omega) hN] at hy
          split at hy
          · simp only [Option.mem_def, Option.some_inj] at hy
            subst hy
            simp [hf, List.length_take, Nat.min_eq_left (show 1 ≤ rest.length by omega)]
          · simp at hy
        · exact ih (done ++ rest.take 1) (rest.drop 1) _ used (by simp; omega)
    · simp [irwScanGo, hN2]

theorem irwScanGo_none {T : Type} (N : Nat) (f : List T → Option (List T)) :
    ∀ (fuel : Nat) (done rest acc : List T),
      (∀ j, j + N ≤ rest.length → f ((rest.drop j).take N) = none) →
      (irwScanGo N f fuel done rest acc false).buffer = acc
      ∧ (irwScanGo N f fuel done rest acc false).used = false := by
  intro fuel
  induction fuel with
  | zero => intro done rest acc _; simp [irwScanGo]
  | succ fuel ih =>
    intro done rest acc hnone
    by_cases hN2 : N ≤ rest.length
    · have h0 := hnone 0 (by omega)
      rw [List.drop_zero] at h0
      simp only [irwScanGo, if_pos hN2, h0, Bool.false_eq_true, if_neg (by simp : ¬False)]
      apply ih
      intro j hj
      by_cases hNz : N = 0
      · subst hNz
        simpa using hnone 0 (by omega)
      · rw [List.drop_drop, Nat.add_comm 1 j]
        apply hnone (j + 1)
        have hj' : j + N ≤ rest.length - 1 := by simpa using hj
        omega
    · simp [irwScanGo, hN2]

/-- C2: in the windowed rewrite, consecutive examined windows advance by 1
after a declined window and by N after a fired window (so consumed elements
are never re-examined), every examined window is the N-element slice of the
original vector at its recorded position, and on [1,2,3,4,5] with a rule
firing only at position 1 and replacing [2,3] by [10], the result is
[1,10,4,5] with windows examined exactly at positions 0, 1 and 3 (the
window [4,5] at position 3 is evaluated and kept). -/
theorem c2_window_advance :
    (∀ (T : Type) (N : Nat) (f : List T → Option (List T)) (v : List T), 0 < N →
      List.Chain' (fun a b => b.1 = a.1 + if (f a.2).isSome then N else 1) (irwCalls N f v)
      ∧ ∀ p ∈ irwCalls N f v, p.2 = (v.drop p.1).take N)
    ∧ iterateReplacingWindow 2 ruleC2 [1, 2, 3, 4, 5] = [1, 10, 4, 5]
    ∧ (irwCalls 2 ruleC2 [1, 2, 3, 4, 5]).map Prod.fst = [0, 1, 3] := by
  refine ⟨?_, by decide, by decide⟩
  intro T N f v hN
  constructor
  · exact irwScanGo_chain N hN f v.length [] v [] false (le_refl _)
  · intro p hp
    have := irwScanGo_calls_window N f v.length [] v [] false p hp
    simpa using this

/-- C2 witness: the general advance property instantiated at N = 2 with the
concrete rule and vector of the example. -/
theorem c2_witness :
    List.Chain' (fun a b => b.1 = a.1 + if (ruleC2 a.2).isSome then 2 else 1)
        (irwCalls 2 ruleC2 [1, 2, 3, 4, 5])
    ∧ ∀ p ∈ irwCalls 2 ruleC2 [1, 2, 3, 4, 5],
        p.2 = (([1, 2, 3, 4, 5] : List Nat).drop p.1).take 2 :=
  c2_window_advance.1 Nat 2 ruleC2 [1, 2, 3, 4, 5] (by norm_num)

/-- C3: the single-element rewrite produces the left-to-right interleaving
of untouched elements and replacement sequences (each element on which the
rule fired is replaced in place by that invocation's replacement), the rule
is invoked exactly once on each original element in order, and on
[1,2,3,4] with a rule replacing 3 by [30,31] the result is [1,2,30,31,4]. -/
theorem c3_interleaving :
    (∀ (T : Type) (f : T → Option (List T)) (v : List T),
      iterateReplacing f v = v.flatMap fun x => (f x).getD [x])
    ∧ (∀ (T : Type) (f : T → Option (List T)) (v : List T), irCalls f v = v)
    ∧ iterateReplacing ruleC3 [1, 2, 3, 4] = [1, 2, 30, 31, 4] := by
  refine ⟨?_, ?_, by decide⟩
  · intro T f v
    unfold iterateReplacing
    rw [irScanGo_false f v [] []]
    by_cases ha : v.any (fun x => (f x).isSome) = true
    · simp [ha]
    · simp only [Bool.not_eq_true] at ha
      simp only [ha, Bool.false_eq_true, if_neg (by simp : ¬False)]
      rw [flatMap_getD_of_none f v]
      intro x hx
      have := List.any_eq_false.mp ha x hx
      simpa using this
  · intro T f v
    unfold irCalls
    exact irScanGo_calls f v [] [] false

/-- C5: when the rule declines every element (or every window), both
rewriters leave the vector exactly equal to its original contents, the
staging buffer stays empty and the useModified flag stays false (no copy
of the elements is made). -/
theorem c5_noop :
    (∀ (T : Type) (f : T → Option (List T)) (v : List T),
      (∀ x ∈ v, f x = none) →
        iterateReplacing f v = v
        ∧ (irScanGo f [] v [] false).buffer = []
        ∧ (irScanGo f [] v [] false).used = false)
    ∧ ∀ (T : Type) (N : Nat) (f : List T → Option (List T)) (v : List T),
      (∀ j, j + N ≤ v.length → f ((v.drop j).take N) = none) →
        iterateReplacingWindow N f v = v
        ∧ (irwScanGo N f v.length [] v [] false).buffer = []
        ∧ (irwScanGo N f v.length [] v [] false).used = false := by
  constructor
  · intro T f v h
    have ha : v.any (fun x => (f x).isSome) = false := by
      rw [List.any_eq_false]
      intro x hx
      simp [h x hx]
    unfold iterateReplacing
    rw [irScanGo_false f v [] [], ha]
    simp
  · intro T N f v h
    have hb := irwScanGo_none N f v.length [] v [] h
    refine ⟨?_, hb.1, hb.2⟩
    unfold iterateReplacingWindow
    simp [hb.2]

/-- C5 witness: a never-firing rule on concrete vectors, for the
single-element rewriter and for the windowed rewriter at N = 2. -/
theorem c5_witness :
    (iterateReplacing (fun (_ : Nat) => (none : Option (List Nat))) [1, 2] = [1, 2]
      ∧ (irScanGo (fun (_ : Nat) => (none : Option (List Nat))) [] [1, 2] [] false).buffer = []
      ∧ (irScanGo (fun (_ : Nat) => (none : Option (List Nat))) [] [1, 2] [] false).used = false)
    ∧ iterateReplacingWindow 2 (fun (_ : List Nat) => (none : Option (List Nat))) [1, 2, 3]
        = [1, 2, 3]
      ∧ (irwScanGo 2 (fun (_ : List Nat) => (none : Option (List Nat)))
          ([1, 2, 3] : List Nat).length [] [1, 2, 3] [] false).buffer = []
      ∧ (irwScanGo 2 (fun (_ : List Nat) => (none : Option (List Nat)))
          ([1, 2, 3] : List Nat).length [] [1, 2, 3] [] false).used = false :=
  ⟨c5_noop.1 Nat (fun _ => none) [1, 2] (by simp),
   c5_noop.2 Nat 2 (fun _ => none) [1, 2, 3] (by simp)⟩

/-- C9: when the vector is shorter than the window size N, the windowed
rewriter never invokes the rule and leaves the vector equal to its
original contents. -/
theorem c9_short_vector :
    ∀ (T : Type) (N : Nat) (f : List T → Option (List T)) (v : List T),
      v.length < N →
        iterateReplacingWindow N f v = v ∧ irwCalls N f v = [] := by
  intro T N f v h
  unfold iterateReplacingWindow irwCalls
  cases v with
  | nil => simp [irwScanGo]
  | cons x rest =>
    have hlen : (x :: rest).length = rest.length + 1 := by simp
    have hnle : ¬ N ≤ rest.length + 1 := by
      rw [hlen] at h
      omega
    simp [irwScanGo, hnle]

/-- C9 witness: window size 3 on a two-element vector. -/
theorem c9_witness :
    ([1, 2] : List Nat).length < 3
    ∧ (iterateReplacingWindow 3 (fun (_ : List Nat) => (some [] : Option (List Nat))) [1, 2]
        = [1, 2]
      ∧ irwCalls 3 (fun (_ : List Nat) => (some [] : Option (List Nat))) [1, 2] = []) :=
  ⟨by norm_num, c9_short_vector Nat 3 (fun _ => some []) [1, 2] (by norm_num)⟩

/-- C8: decoding the hex string "zz" under the Throw policy signals a
decoding failure, while under the DontThrow policy it succeeds and returns
the single byte sequence [0], because each invalid hex character is
substituted by the nibble value 0 and decoding continues. -/
theorem c8_hex_error_modes :
    fromHexStr WhenError.Throw ['z', 'z'] = Except.error ()
    ∧ fromHexStr WhenError.DontThrow ['z', 'z'] = Except.ok [0] :=
  ⟨rfl, rfl⟩

/-- C10: formatNumber accepts negative arbitrary-precision values at
runtime: for every v below zero it returns the minus character followed by
the rendering of the negated value, rather than rejecting the input. -/
theorem c10_format_negative :
    ∀ v : Int, v < 0 → formatNumber v = "-" ++ formatNumber (-v) := by
  intro v hv
  rw [formatNumber]
  simp [hv]

/-- C10 witness: the negative value -5. -/
theorem c10_witness : formatNumber (-5) = "-" ++ formatNumber (-(-5)) :=
  c10_format_negative (-5) (by norm_num)
